import Mathlib

/-!
Verification of the production-planning module (`production_planning.py`).

The module computes lot-sizing plans for a finite demand horizon:
`wagner_whitin` (cost-matrix + forward DP + backtracking), `lot_for_lot`, and
`fixed_order_quantity` (EOQ-based simulation).

Embedding conventions:
* demand quantities are natural numbers (the spec requires non-negative
  quantities), costs are exact rationals (`ℚ`); Python float arithmetic is
  modelled by exact rational arithmetic;
* `int(np.sqrt(x))` is modelled as `Nat.sqrt ⌊x⌋.toNat` (floor of the square
  root), which agrees with the float computation on all instances used here;
* Python runtime errors (IndexError on an empty `f` array, ZeroDivisionError,
  `int(nan)` ValueError) are modelled by `Option`: `none` exactly when the
  Python code raises;
* loops that accumulate totals are embedded as recursions producing the same
  per-period contributions (summed right-to-left instead of left-to-right);
* the `while` loop of the backtracking phase is embedded with an explicit
  fuel parameter; fuel `n` is enough for every run that the program performs.
-/

namespace ProductionPlanning

/-- Prefix sum of the first `k` entries of a list (entries past the end
count as 0). -/
def sumTo (l : List ℕ) (k : ℕ) : ℕ := ∑ i in Finset.range k, l.getD i 0

/-- Largest entry of a demand list (`max(demand)` in Python, for a nonempty
list). -/
def maxDemand (d : List ℕ) : ℕ := d.foldr max 0

/-- Cost-matrix row construction, by offset: `costAux d s h i m` is
`cost[i][i+m]` of the source, built exactly as the inner loop does, by
accumulating `demand[j] * periods_held * holding_cost` into a running
cumulative holding cost (`periods_held = m`, `j = i + m`). -/
def costAux (d : List ℕ) (s h : ℚ) (i : ℕ) : ℕ → ℚ
  | 0 => s
  | m + 1 => costAux d s h i m + (d.getD (i + m + 1) 0 : ℚ) * ((m + 1 : ℕ) : ℚ) * h

/-- `costC d s h i j` is the cost-matrix entry `cost[i][j]` of the source:
the cost of producing in period `i` to satisfy demand for periods `i..j`. -/
def costC (d : List ℕ) (s h : ℚ) (i j : ℕ) : ℚ := costAux d s h i (j - i)

/-- The inner minimisation loop of the forward DP: scan candidate start
periods `i = 0, 1, ..., j` in increasing order, keeping the candidate value
and its index, replacing only on strict improvement (`<`), exactly as the
source initialises with `i = 0` and scans `i = 1..j`. -/
def dpScan (g : ℕ → ℚ) : ℕ → ℚ × ℕ
  | 0 => (g 0, 0)
  | j + 1 =>
    let b := dpScan g j
    if g (j + 1) < b.1 then (g (j + 1), j + 1) else b

/-- Candidate value scanned by the DP at column `j` for start period `i`,
reading earlier `f` values from the table `fs`: `f[i-1] + cost[i][j]`, with
the `i = 0` candidate being `cost[0][j]` (the loop initialisation). -/
def gOf (d : List ℕ) (s h : ℚ) (fs : List ℚ) (j i : ℕ) : ℚ :=
  if i = 0 then costC d s h 0 j else fs.getD (i - 1) 0 + costC d s h i j

/-- The forward DP tables after `m` outer iterations: the lists
`f[0..m-1]` and `last_production[0..m-1]` of the source. -/
def wwFs (d : List ℕ) (s h : ℚ) : ℕ → List ℚ × List ℕ
  | 0 => ([], [])
  | m + 1 =>
    let t := wwFs d s h m
    let b := dpScan (gOf d s h t.1 m) m
    (t.1 ++ [b.1], t.2 ++ [b.2])

/-- `f[j]`: minimum cost to satisfy demand for periods `0..j`. -/
def fval (d : List ℕ) (s h : ℚ) (j : ℕ) : ℚ := (wwFs d s h (j + 1)).1.getD j 0

/-- `last_production[j]`: recorded start period of the final production run
in the optimal decomposition of `0..j`. -/
def lastVal (d : List ℕ) (s h : ℚ) (j : ℕ) : ℕ := (wwFs d s h (j + 1)).2.getD j 0

/-- The DP candidate value `f[i-1] + cost[i][j]` (with `f[-1] = 0`), stated
through `fval`; agrees with `gOf` applied to the tables. -/
def candidate (d : List ℕ) (s h : ℚ) (j i : ℕ) : ℚ :=
  if i = 0 then costC d s h 0 j else fval d s h (i - 1) + costC d s h i j

/-- `sum(demand[p:j+1])` of the backtracking phase. -/
def sliceSum (d : List ℕ) (p j : ℕ) : ℕ := ((d.drop p).take (j + 1 - p)).sum

/-- Backtracking loop: from column `j`, write
`plan[p] = sum(demand[p:j+1])` where `p = last_production[j]`, and continue
from `p - 1` while that is non-negative.  `fuel` bounds the number of
iterations; `fuel = n` suffices since `p ≤ j` at every step. -/
def backAux (d : List ℕ) (last : ℕ → ℕ) : ℕ → ℕ → List ℕ → List ℕ
  | 0, _, plan => plan
  | fuel + 1, j, plan =>
    let p := last j
    let plan2 := plan.set p (sliceSum d p j)
    match p with
    | 0 => plan2
    | q + 1 => backAux d last fuel q plan2

/-- The production plan assembled by `wagner_whitin`'s backtracking phase. -/
def wwPlanList (d : List ℕ) (s h : ℚ) : List ℕ :=
  backAux d (lastVal d s h) d.length (d.length - 1) (List.replicate d.length 0)

/-- `wagner_whitin(demand, setup_cost, holding_cost)`: returns
`(f[n-1], production_plan)`; on an empty demand list the Python code raises
IndexError (`f[-1]` on an empty array), modelled by `none`. -/
def wagner_whitin (d : List ℕ) (s h : ℚ) : Option (ℚ × List ℕ) :=
  if d.length = 0 then none
  else some (fval d s h (d.length - 1), wwPlanList d s h)

/-- The loop of `lot_for_lot`: one setup cost per period with positive
demand, plan entry equal to the demand there (0 otherwise). -/
def lflAux (s : ℚ) : List ℕ → ℚ × List ℕ
  | [] => (0, [])
  | di :: rest =>
    let r := lflAux s rest
    if 0 < di then (s + r.1, di :: r.2) else (r.1, 0 :: r.2)

/-- `lot_for_lot(demand, setup_cost, holding_cost)`: produce exactly the
demand of each period; the `holding_cost` parameter is accepted but unused. -/
def lot_for_lot (d : List ℕ) (s h : ℚ) : ℚ × List ℕ := lflAux s d

/-- Simulation loop of `fixed_order_quantity`: running inventory (a Python
int, possibly negative), producing `eoq` units whenever inventory is below
the period's demand, charging `setup_cost` per production and
`inventory * holding_cost` on end-of-period inventory.  Returns
`(total_cost_from_setups, total_holding, plan)`. -/
def foqAux (s h : ℚ) (eoq : ℕ) : List ℕ → ℤ → ℚ × ℚ × List ℕ
  | [], _ => (0, 0, [])
  | di :: rest, inv =>
    if inv < (di : ℤ) then
      (s + (foqAux s h eoq rest (inv + (eoq : ℤ) - (di : ℤ))).1,
        ((inv + (eoq : ℤ) - (di : ℤ) : ℤ) : ℚ) * h +
          (foqAux s h eoq rest (inv + (eoq : ℤ) - (di : ℤ))).2.1,
        eoq :: (foqAux s h eoq rest (inv + (eoq : ℤ) - (di : ℤ))).2.2)
    else
      ((foqAux s h eoq rest (inv - (di : ℤ))).1,
        ((inv - (di : ℤ) : ℤ) : ℚ) * h + (foqAux s h eoq rest (inv - (di : ℤ))).2.1,
        0 :: (foqAux s h eoq rest (inv - (di : ℤ))).2.2)

/-- Default order quantity of `fixed_order_quantity`:
`int(np.sqrt(2 * avg_demand * setup_cost / holding_cost))`, raised to at
least `max(demand)`. -/
def defaultEOQ (d : List ℕ) (s h : ℚ) : ℕ :=
  max (Nat.sqrt (⌊2 * ((d.sum : ℚ) / (d.length : ℚ)) * s / h⌋.toNat)) (maxDemand d)

/-- `fixed_order_quantity(demand, setup_cost, holding_cost, eoq)`: when no
explicit quantity is supplied, the Python code raises ZeroDivisionError for
`n = 0` or `holding_cost = 0`, and ValueError (`int(nan)`) when the EOQ
square-root argument is negative — modelled by `none`; otherwise it runs the
simulation and returns `(setup costs + holding costs, plan)`. -/
def fixed_order_quantity (d : List ℕ) (s h : ℚ) (eoq? : Option ℕ) :
    Option (ℚ × List ℕ) :=
  match eoq? with
  | some q =>
    let r := foqAux s h q d 0
    some (r.1 + r.2.1, r.2.2)
  | none =>
    if d.length = 0 ∨ h = 0 ∨ 2 * ((d.sum : ℚ) / (d.length : ℚ)) * s / h < 0 then
      none
    else
      let r := foqAux s h (defaultEOQ d s h) d 0
      some (r.1 + r.2.1, r.2.2)

/-- Specification-side notion for the optimality claim: `PartCost d s h j c`
holds when `c` is the total cost of some partition of periods `0..j` into
contiguous coverage intervals, each interval `[i, e]` contributing the
cost-matrix entry `cost[i][e]`. -/
inductive PartCost (d : List ℕ) (s h : ℚ) : ℕ → ℚ → Prop
  | single (j : ℕ) : PartCost d s h j (costC d s h 0 j)
  | cons (i j : ℕ) (c : ℚ) (hij : i + 1 ≤ j) (hc : PartCost d s h i c) :
      PartCost d s h j (c + costC d s h (i + 1) j)

/-! ### Basic list and prefix-sum lemmas -/

theorem sumTo_zero (l : List ℕ) : sumTo l 0 = 0 := by
  simp [sumTo]

theorem sumTo_succ (l : List ℕ) (k : ℕ) :
    sumTo l (k + 1) = sumTo l k + l.getD k 0 :=
  Finset.sum_range_succ _ _

theorem sumTo_cons (a : ℕ) (l : List ℕ) (k : ℕ) :
    sumTo (a :: l) (k + 1) = a + sumTo l k := by
  unfold sumTo
  rw [Finset.sum_range_succ']
  simp [List.getD_cons_succ, List.getD_cons_zero, add_comm]

theorem take_sum_eq_sumTo (l : List ℕ) (m : ℕ) : (l.take m).sum = sumTo l m := by
  induction l generalizing m with
  | nil => simp [sumTo]
  | cons a t ih =>
    cases m with
    | zero => simp [sumTo]
    | succ k => simp [List.take_succ_cons, sumTo_cons, ih]

theorem sum_eq_sumTo (l : List ℕ) : l.sum = sumTo l l.length := by
  rw [← take_sum_eq_sumTo, List.take_length]

theorem getD_set_self {l : List ℕ} {p : ℕ} (hp : p < l.length) (v : ℕ) :
    (l.set p v).getD p 0 = v := by
  induction l generalizing p with
  | nil => simp at hp
  | cons a t ih =>
    cases p with
    | zero => rfl
    | succ q => exact ih (by simpa using hp)

theorem getD_set_ne {l : List ℕ} {p k : ℕ} (hne : k ≠ p) (v : ℕ) :
    (l.set p v).getD k 0 = l.getD k 0 := by
  induction l generalizing p k with
  | nil => rfl
  | cons a t ih =>
    cases p with
    | zero =>
      cases k with
      | zero => exact absurd rfl hne
      | succ k' => rfl
    | succ q =>
      cases k with
      | zero => rfl
      | succ k' => exact ih (fun hh => hne (by rw [hh]))

theorem getD_replicate_zero (n k : ℕ) : (List.replicate n 0).getD k 0 = 0 := by
  induction n generalizing k with
  | zero => rfl
  | succ m ih =>
    cases k with
    | zero => rfl
    | succ k' => exact ih k'

theorem sumTo_mono (l : List ℕ) {a b : ℕ} (hab : a ≤ b) : sumTo l a ≤ sumTo l b :=
  Finset.sum_le_sum_of_subset (Finset.range_subset.mpr hab)

theorem sumTo_add_Ico (l : List ℕ) {a b : ℕ} (hab : a ≤ b) :
    sumTo l b = sumTo l a + ∑ k in Finset.Ico a b, l.getD k 0 := by
  unfold sumTo
  rw [Finset.range_eq_Ico]
  exact (Finset.sum_Ico_consecutive _ (Nat.zero_le a) hab).symm

theorem sumTo_set_zero {l : List ℕ} {p k : ℕ} (hp : p < l.length)
    (hpk : p < k) (h0 : l.getD p 0 = 0) (v : ℕ) :
    sumTo (l.set p v) k = v + sumTo l k := by
  have hmem : p ∈ Finset.range k := Finset.mem_range.mpr hpk
  unfold sumTo
  rw [Finset.sum_eq_sum_diff_singleton_add hmem, Finset.sum_eq_sum_diff_singleton_add hmem
    (fun i => l.getD i 0), h0, add_zero, getD_set_self hp]
  have hcongr : ∀ i ∈ Finset.range k \ {p}, (l.set p v).getD i 0 = l.getD i 0 := by
    intro i hi
    rcases Finset.mem_sdiff.mp hi with ⟨_, hne⟩
    exact getD_set_ne (by simpa using hne) v
  rw [Finset.sum_congr rfl hcongr]
  ring

theorem sumTo_set_of_le {l : List ℕ} {p k : ℕ} (hkp : k ≤ p) (v : ℕ) :
    sumTo (l.set p v) k = sumTo l k := by
  unfold sumTo
  refine Finset.sum_congr rfl ?_
  intro i hi
  exact getD_set_ne (by have := Finset.mem_range.mp hi; omega) v

theorem getD_drop (l : List ℕ) (p i : ℕ) :
    (l.drop p).getD i 0 = l.getD (p + i) 0 := by
  induction l generalizing p with
  | nil => simp
  | cons a t ih =>
    cases p with
    | zero => simp
    | succ q =>
      have : (a :: t).drop (q + 1) = t.drop q := rfl
      rw [this, ih, Nat.succ_add]
      rfl

theorem sliceSum_eq (d : List ℕ) (p j : ℕ) :
    sliceSum d p j = ∑ k in Finset.Ico p (j + 1), d.getD k 0 := by
  unfold sliceSum
  rw [take_sum_eq_sumTo]
  unfold sumTo
  rw [Finset.sum_Ico_eq_sum_range]
  refine Finset.sum_congr rfl ?_
  intro i _
  exact getD_drop d p i

theorem maxDemand_ge (d : List ℕ) {k : ℕ} :
    d.getD k 0 ≤ maxDemand d := by
  induction d generalizing k with
  | nil => simp [maxDemand]
  | cons a t ih =>
    cases k with
    | zero => exact le_max_left _ _
    | succ q => exact le_trans (@ih q) (le_max_right _ _)

/-! ### Cost-matrix closed form -/

theorem costAux_closed (d : List ℕ) (s h : ℚ) (i m : ℕ) :
    costAux d s h i m =
      s + ∑ k in Finset.Ico (i + 1) (i + m + 1),
        (d.getD k 0 : ℚ) * ((k - i : ℕ) : ℚ) * h := by
  induction m with
  | zero => simp [costAux]
  | succ m ih =>
    have hsplit :
        ∑ k in Finset.Ico (i + 1) (i + (m + 1) + 1),
            (d.getD k 0 : ℚ) * ((k - i : ℕ) : ℚ) * h =
          (∑ k in Finset.Ico (i + 1) (i + m + 1),
            (d.getD k 0 : ℚ) * ((k - i : ℕ) : ℚ) * h) +
            (d.getD (i + m + 1) 0 : ℚ) * ((i + m + 1 - i : ℕ) : ℚ) * h := by
      have : i + (m + 1) + 1 = (i + m + 1) + 1 := by omega
      rw [this]
      exact Finset.sum_Ico_succ_top (by omega) _
    rw [costAux, ih, hsplit]
    have : i + m + 1 - i = m + 1 := by omega
    rw [this]
    ring

theorem costC_closed (d : List ℕ) (s h : ℚ) {i j : ℕ} (hij : i ≤ j) :
    costC d s h i j =
      s + ∑ k in Finset.Ico (i + 1) (j + 1),
        (d.getD k 0 : ℚ) * ((k - i : ℕ) : ℚ) * h := by
  unfold costC
  rw [costAux_closed]
  have : i + (j - i) + 1 = j + 1 := by omega
  rw [this]

theorem costC_self (d : List ℕ) (s h : ℚ) (i : ℕ) : costC d s h i i = s := by
  simp [costC, costAux]

/-! ### Properties of the DP scan -/

theorem dpScan_snd_le (g : ℕ → ℚ) (j : ℕ) : (dpScan g j).2 ≤ j := by
  induction j with
  | zero => simp [dpScan]
  | succ j ih =>
    rw [dpScan]
    split
    · exact le_refl _
    · exact Nat.le_succ_of_le ih

theorem dpScan_fst_eq (g : ℕ → ℚ) (j : ℕ) : (dpScan g j).1 = g (dpScan g j).2 := by
  induction j with
  | zero => rfl
  | succ j ih =>
    rw [dpScan]
    split
    · rfl
    · exact ih

theorem dpScan_fst_le (g : ℕ → ℚ) {j i : ℕ} (hij : i ≤ j) :
    (dpScan g j).1 ≤ g i := by
  induction j with
  | zero =>
    have : i = 0 := Nat.le_zero.mp hij
    subst this
    exact le_refl _
  | succ j ih =>
    rw [dpScan]
    rcases Nat.lt_or_ge i (j + 1) with hlt | hge
    · have hle := ih (Nat.lt_succ_iff.mp hlt)
      split
      · exact le_trans (le_of_lt (by assumption)) hle
      · exact hle
    · have : i = j + 1 := le_antisymm hij hge
      subst this
      split
      · exact le_refl _
      · exact le_of_not_lt (by assumption)

theorem dpScan_lt_of_lt_snd (g : ℕ → ℚ) {j i : ℕ} (hi : i < (dpScan g j).2) :
    (dpScan g j).1 < g i := by
  induction j with
  | zero => simp [dpScan] at hi
  | succ j ih =>
    rw [dpScan] at hi ⊢
    by_cases hcond : g (j + 1) < (dpScan g j).1
    · rw [if_pos hcond] at hi ⊢
      have hij : i ≤ j := Nat.lt_succ_iff.mp hi
      exact lt_of_lt_of_le hcond (dpScan_fst_le g hij)
    · rw [if_neg hcond] at hi ⊢
      exact ih hi

theorem dpScan_congr {g₁ g₂ : ℕ → ℚ} (j : ℕ) (hg : ∀ i, i ≤ j → g₁ i = g₂ i) :
    dpScan g₁ j = dpScan g₂ j := by
  induction j with
  | zero => simp [dpScan, hg 0 (le_refl 0)]
  | succ j ih =>
    have hrec := ih (fun i hi => hg i (Nat.le_succ_of_le hi))
    rw [dpScan, dpScan, hrec, hg (j + 1) (le_refl _)]

/-! ### Characterisation of the DP tables -/

theorem wwFs_len1 (d : List ℕ) (s h : ℚ) (m : ℕ) :
    (wwFs d s h m).1.length = m := by
  induction m with
  | zero => rfl
  | succ m ih => simp [wwFs, ih]

theorem wwFs_len2 (d : List ℕ) (s h : ℚ) (m : ℕ) :
    (wwFs d s h m).2.length = m := by
  induction m with
  | zero => rfl
  | succ m ih => simp [wwFs, ih]

theorem wwFs_fst_stable (d : List ℕ) (s h : ℚ) {m m' k : ℕ}
    (hmm : m ≤ m') (hk : k < m) :
    (wwFs d s h m').1.getD k 0 = (wwFs d s h m).1.getD k 0 := by
  induction m' with
  | zero => omega
  | succ n ih =>
    rcases Nat.lt_or_ge m (n + 1) with hlt | hge
    · have hmn : m ≤ n := Nat.lt_succ_iff.mp hlt
      have hkn : k < (wwFs d s h n).1.length := by rw [wwFs_len1]; omega
      have : (wwFs d s h (n + 1)).1 = (wwFs d s h n).1 ++
          [(dpScan (gOf d s h (wwFs d s h n).1 n) n).1] := rfl
      rw [this, List.getD_append _ _ _ _ hkn, ih hmn]
    · have : m = n + 1 := le_antisymm hmm hge
      rw [this]

theorem wwFs_snd_stable (d : List ℕ) (s h : ℚ) {m m' k : ℕ}
    (hmm : m ≤ m') (hk : k < m) :
    (wwFs d s h m').2.getD k 0 = (wwFs d s h m).2.getD k 0 := by
  induction m' with
  | zero => omega
  | succ n ih =>
    rcases Nat.lt_or_ge m (n + 1) with hlt | hge
    · have hmn : m ≤ n := Nat.lt_succ_iff.mp hlt
      have hkn : k < (wwFs d s h n).2.length := by rw [wwFs_len2]; omega
      have : (wwFs d s h (n + 1)).2 = (wwFs d s h n).2 ++
          [(dpScan (gOf d s h (wwFs d s h n).1 n) n).2] := rfl
      rw [this, List.getD_append _ _ _ _ hkn, ih hmn]
    · have : m = n + 1 := le_antisymm hmm hge
      rw [this]

theorem wwFs_fst_getD (d : List ℕ) (s h : ℚ) {m k : ℕ} (hk : k < m) :
    (wwFs d s h m).1.getD k 0 = fval d s h k :=
  wwFs_fst_stable d s h (Nat.succ_le_of_lt hk) (Nat.lt_succ_self k)

theorem gOf_eq_candidate (d : List ℕ) (s h : ℚ) (j : ℕ) :
    ∀ i, i ≤ j → gOf d s h (wwFs d s h j).1 j i = candidate d s h j i := by
  intro i hi
  cases i with
  | zero => rfl
  | succ r =>
    unfold gOf candidate
    rw [if_neg (Nat.succ_ne_zero r), if_neg (Nat.succ_ne_zero r)]
    have hr : r < j := by omega
    rw [show r + 1 - 1 = r from rfl, wwFs_fst_getD d s h hr]

theorem fval_eq_dpScan (d : List ℕ) (s h : ℚ) (j : ℕ) :
    fval d s h j = (dpScan (candidate d s h j) j).1 := by
  unfold fval
  have hsplit : (wwFs d s h (j + 1)).1 = (wwFs d s h j).1 ++
      [(dpScan (gOf d s h (wwFs d s h j).1 j) j).1] := rfl
  rw [hsplit, List.getD_append_right _ _ _ _ (by rw [wwFs_len1]),
    wwFs_len1, Nat.sub_self]
  rw [dpScan_congr j (gOf_eq_candidate d s h j)]
  rfl

theorem lastVal_eq_dpScan (d : List ℕ) (s h : ℚ) (j : ℕ) :
    lastVal d s h j = (dpScan (candidate d s h j) j).2 := by
  unfold lastVal
  have hsplit : (wwFs d s h (j + 1)).2 = (wwFs d s h j).2 ++
      [(dpScan (gOf d s h (wwFs d s h j).1 j) j).2] := rfl
  rw [hsplit, List.getD_append_right _ _ _ _ (by rw [wwFs_len2]),
    wwFs_len2, Nat.sub_self]
  rw [dpScan_congr j (gOf_eq_candidate d s h j)]
  rfl

theorem lastVal_le (d : List ℕ) (s h : ℚ) (j : ℕ) : lastVal d s h j ≤ j := by
  rw [lastVal_eq_dpScan]
  exact dpScan_snd_le _ j

theorem fval_le_candidate (d : List ℕ) (s h : ℚ) {j i : ℕ} (hij : i ≤ j) :
    fval d s h j ≤ candidate d s h j i := by
  rw [fval_eq_dpScan]
  exact dpScan_fst_le _ hij

theorem fval_eq_candidate_last (d : List ℕ) (s h : ℚ) (j : ℕ) :
    fval d s h j = candidate d s h j (lastVal d s h j) := by
  rw [fval_eq_dpScan, lastVal_eq_dpScan]
  exact dpScan_fst_eq _ j

theorem fval_lt_candidate_of_lt_last (d : List ℕ) (s h : ℚ) {j i : ℕ}
    (hi : i < lastVal d s h j) :
    fval d s h j < candidate d s h j i := by
  rw [fval_eq_dpScan]
  rw [lastVal_eq_dpScan] at hi
  exact dpScan_lt_of_lt_snd _ hi

/-! ### Optimality of the DP value over interval partitions -/

theorem fval_le_partCost (d : List ℕ) (s h : ℚ) :
    ∀ {j c}, PartCost d s h j c → fval d s h j ≤ c := by
  intro j c hpc
  induction hpc with
  | single j =>
    have := fval_le_candidate d s h (Nat.zero_le j)
    simpa [candidate] using this
  | cons i j c hij hc ih =>
    have h1 : fval d s h j ≤ candidate d s h j (i + 1) := fval_le_candidate d s h hij
    have h2 : candidate d s h j (i + 1) = fval d s h i + costC d s h (i + 1) j := by
      simp [candidate]
    rw [h2] at h1
    exact le_trans h1 (add_le_add_right ih _)

theorem partCost_fval (d : List ℕ) (s h : ℚ) :
    ∀ j, PartCost d s h j (fval d s h j) := by
  intro j
  induction j using Nat.strong_induction_on with
  | _ j ih =>
    have hle := lastVal_le d s h j
    have heq := fval_eq_candidate_last d s h j
    cases hl : lastVal d s h j with
    | zero =>
      rw [hl] at heq
      have : fval d s h j = costC d s h 0 j := by simpa [candidate] using heq
      rw [this]
      exact PartCost.single j
    | succ q =>
      have hq : q + 1 ≤ j := hl ▸ hle
      have hrec := ih q (by omega)
      rw [hl] at heq
      have : fval d s h j = fval d s h q + costC d s h (q + 1) j := by
        simpa [candidate] using heq
      rw [this]
      exact PartCost.cons q j _ hq hrec

/-! ### The backtracking phase: structure of the assembled plan -/

theorem backAux_spec (d : List ℕ) (last : ℕ → ℕ) (hlast : ∀ j, last j ≤ j) :
    ∀ j fuel plan, j + 1 ≤ fuel → plan.length = d.length → j < d.length →
      (∀ k, k ≤ j → plan.getD k 0 = 0) →
      (backAux d last fuel j plan).length = d.length ∧
      (∀ k, j < k → (backAux d last fuel j plan).getD k 0 = plan.getD k 0) ∧
      sumTo (backAux d last fuel j plan) (j + 1) = sumTo d (j + 1) ∧
      (∀ t, t ≤ j → sumTo d (t + 1) ≤ sumTo (backAux d last fuel j plan) (t + 1)) := by
  intro j
  induction j using Nat.strong_induction_on with
  | _ j ih =>
    intro fuel plan hfuel hlen hj hzero
    cases fuel with
    | zero => omega
    | succ f =>
      have hpj : last j ≤ j := hlast j
      cases hp : last j with
      | zero =>
        -- final interval starts at period 0: one write, then the loop stops
        have hres : backAux d last (f + 1) j plan =
            plan.set 0 (sliceSum d 0 j) := by
          rw [backAux, hp]
        have hlen0 : 0 < plan.length := by omega
        have hslice : sliceSum d 0 j = sumTo d (j + 1) := by
          rw [sliceSum_eq, sumTo, Finset.range_eq_Ico]
        refine ⟨?_, ?_, ?_, ?_⟩
        · rw [hres, List.length_set]; exact hlen
        · intro k hk
          rw [hres]
          exact getD_set_ne (by omega) _
        · rw [hres, sumTo_set_zero hlen0 (by omega) (hzero 0 (Nat.zero_le j)), hslice]
          have hplan : sumTo plan (j + 1) = 0 := by
            unfold sumTo
            refine Finset.sum_eq_zero ?_
            intro i hi
            exact hzero i (by have := Finset.mem_range.mp hi; omega)
          rw [hplan, add_zero]
        · intro t ht
          rw [hres, sumTo_set_zero hlen0 (by omega) (hzero 0 (Nat.zero_le j)), hslice]
          have := sumTo_mono d (show t + 1 ≤ j + 1 by omega)
          omega
      | succ q =>
        -- write at p = q+1, then continue backtracking from q
        set p := q + 1 with hpdef
        have hres : backAux d last (f + 1) j plan =
            backAux d last f q (plan.set p (sliceSum d p j)) := by
          rw [backAux, hp]
        have hplen : p < plan.length := by omega
        set plan2 := plan.set p (sliceSum d p j) with hplan2
        have hlen2 : plan2.length = d.length := by
          rw [hplan2, List.length_set]; exact hlen
        have hzero2 : ∀ k, k ≤ q → plan2.getD k 0 = 0 := by
          intro k hk
          rw [hplan2, getD_set_ne (by omega)]
          exact hzero k (by omega)
        have hrec := ih q (by omega) f plan2 (by omega) hlen2 (by omega) hzero2
        obtain ⟨hrl, hrabove, hrsum, hrfeas⟩ := hrec
        set r := backAux d last f q plan2 with hrdef
        have hgetp : r.getD p 0 = sliceSum d p j := by
          rw [hrabove p (by omega), hplan2]
          exact getD_set_self hplen _
        have hget_mid : ∀ k, p < k → k ≤ j → r.getD k 0 = 0 := by
          intro k hk1 hk2
          rw [hrabove k (by omega), hplan2, getD_set_ne (by omega)]
          exact hzero k hk2
        have hmid_sum : ∀ t, p ≤ t → t ≤ j →
            ∑ k in Finset.Ico p (t + 1) \ {p}, r.getD k 0 = 0 := by
          intro t ht1 ht2
          refine Finset.sum_eq_zero ?_
          intro k hk
          rcases Finset.mem_sdiff.mp hk with ⟨hk1, hk2⟩
          rcases Finset.mem_Ico.mp hk1 with ⟨hk3, hk4⟩
          exact hget_mid k (by simp at hk2; omega) (by omega)
        have hsum_Ico : ∑ k in Finset.Ico p (j + 1), r.getD k 0 =
            ∑ k in Finset.Ico p (j + 1), d.getD k 0 := by
          have hpmem : p ∈ Finset.Ico p (j + 1) := Finset.mem_Ico.mpr ⟨le_refl p, by omega⟩
          rw [Finset.sum_eq_sum_diff_singleton_add hpmem, hmid_sum j (by omega) (le_refl j),
            zero_add, hgetp, sliceSum_eq]
        rw [hres]
        refine ⟨hrl, ?_, ?_, ?_⟩
        · intro k hk
          rw [hrabove k (by omega), hplan2, getD_set_ne (by omega)]
        · rw [sumTo_add_Ico r (show q + 1 ≤ j + 1 by omega), hrsum, hsum_Ico,
            ← sumTo_add_Ico d (show q + 1 ≤ j + 1 by omega)]
        · intro t ht
          rcases Nat.lt_or_ge q t with hqt | htq
          · -- p ≤ t ≤ j : the production at p already covers all demand up to j
            have hpt : p ≤ t := by omega
            have h1 : sumTo r (t + 1) =
                sumTo d (q + 1) + ∑ k in Finset.Ico p (t + 1), r.getD k 0 := by
              rw [sumTo_add_Ico r (show q + 1 ≤ t + 1 by omega), hrsum]
            have hpmem : p ∈ Finset.Ico p (t + 1) := Finset.mem_Ico.mpr ⟨le_refl p, by omega⟩
            have h2 : ∑ k in Finset.Ico p (t + 1), r.getD k 0 = r.getD p 0 := by
              rw [Finset.sum_eq_sum_diff_singleton_add hpmem, hmid_sum t hpt ht, zero_add]
            have h3 : ∑ k in Finset.Ico p (t + 1), d.getD k 0 ≤
                ∑ k in Finset.Ico p (j + 1), d.getD k 0 :=
              Finset.sum_le_sum_of_subset (Finset.Ico_subset_Ico (le_refl p) (by omega))
            have h4 : sumTo d (t + 1) =
                sumTo d (q + 1) + ∑ k in Finset.Ico p (t + 1), d.getD k 0 :=
              sumTo_add_Ico d (show q + 1 ≤ t + 1 by omega)
            rw [hgetp, sliceSum_eq] at h2
            omega
          · exact hrfeas t htq

theorem wwPlanList_spec (d : List ℕ) (s h : ℚ) (hd : d ≠ []) :
    (wwPlanList d s h).length = d.length ∧
    sumTo (wwPlanList d s h) d.length = sumTo d d.length ∧
    (∀ k, k ≤ d.length → sumTo d k ≤ sumTo (wwPlanList d s h) k) := by
  have hn : 1 ≤ d.length := by
    cases d with
    | nil => exact absurd rfl hd
    | cons a t => simp
  have hspec := backAux_spec d (lastVal d s h) (lastVal_le d s h) (d.length - 1)
    d.length (List.replicate d.length 0) (by omega) (by simp) (by omega)
    (fun k _ => getD_replicate_zero _ _)
  obtain ⟨h1, _, h3, h4⟩ := hspec
  have hlen : d.length - 1 + 1 = d.length := by omega
  rw [hlen] at h3
  refine ⟨h1, h3, ?_⟩
  intro k hk
  cases k with
  | zero => simp [sumTo_zero]
  | succ t => exact h4 t (by omega)

/-! ### Lot-for-lot lemmas -/

theorem lflAux_plan (s : ℚ) (d : List ℕ) : (lflAux s d).2 = d := by
  induction d with
  | nil => rfl
  | cons di rest ih =>
    by_cases hdi : 0 < di
    · simp [lflAux, hdi, ih]
    · have : di = 0 := by omega
      simp [lflAux, hdi, ih, this]

theorem lflAux_cost (s : ℚ) (d : List ℕ) :
    (lflAux s d).1 =
      ∑ t in Finset.range d.length, (if d.getD t 0 ≠ 0 then s else 0) := by
  induction d with
  | nil => simp [lflAux]
  | cons di rest ih =>
    rw [List.length_cons, Finset.sum_range_succ']
    have hterms : ∀ i, (if (di :: rest).getD (i + 1) 0 ≠ 0 then s else 0) =
        (if rest.getD i 0 ≠ 0 then s else 0) := fun i => rfl
    simp only [hterms, List.getD_cons_zero]
    by_cases hdi : 0 < di
    · have hne : di ≠ 0 := by omega
      simp [lflAux, hdi, hne, ih, add_comm]
    · have h0 : di = 0 := by omega
      simp [lflAux, hdi, h0, ih]

/-! ### Fixed-order-quantity simulation lemmas -/

theorem foqAux_len (s h : ℚ) (eoq : ℕ) (d : List ℕ) (inv : ℤ) :
    (foqAux s h eoq d inv).2.2.length = d.length := by
  induction d generalizing inv with
  | nil => rfl
  | cons di rest ih =>
    rw [foqAux]
    split
    · simpa using ih _
    · simpa using ih _

theorem foqAux_feasible (s h : ℚ) (eoq : ℕ) :
    ∀ (d : List ℕ) (inv : ℤ), (∀ x ∈ d, x ≤ eoq) → 0 ≤ inv →
      ∀ k, k ≤ d.length →
        (sumTo d k : ℤ) ≤ inv + (sumTo (foqAux s h eoq d inv).2.2 k : ℤ) := by
  intro d
  induction d with
  | nil =>
    intro inv _ hinv k hk
    have : k = 0 := by simpa using hk
    subst this
    simpa [sumTo_zero] using hinv
  | cons di rest ih =>
    intro inv heoq hinv k hk
    have hde : (di : ℤ) ≤ (eoq : ℤ) := by
      exact_mod_cast heoq di (List.mem_cons_self di rest)
    rw [foqAux]
    by_cases hc : inv < (di : ℤ)
    · rw [if_pos hc]
      cases k with
      | zero => simp [sumTo_zero]; omega
      | succ t =>
        have hrec := ih (inv + (eoq : ℤ) - (di : ℤ))
          (fun x hx => heoq x (List.mem_cons_of_mem di hx)) (by omega) t (by simpa using hk)
        simp only [sumTo_cons]
        push_cast
        push_cast at hrec
        omega
    · rw [if_neg hc]
      cases k with
      | zero => simp [sumTo_zero]; omega
      | succ t =>
        have hrec := ih (inv - (di : ℤ))
          (fun x hx => heoq x (List.mem_cons_of_mem di hx)) (by omega) t (by simpa using hk)
        rw [sumTo_cons, sumTo_cons]
        push_cast
        push_cast at hrec
        omega

theorem foqAux_setup_cost (s h : ℚ) (eoq : ℕ) (heoq : 0 < eoq) :
    ∀ (d : List ℕ) (inv : ℤ),
      (foqAux s h eoq d inv).1 =
        ∑ t in Finset.range d.length,
          (if (foqAux s h eoq d inv).2.2.getD t 0 ≠ 0 then s else 0) := by
  intro d
  induction d with
  | nil => intro inv; simp [foqAux]
  | cons di rest ih =>
    intro inv
    rw [foqAux]
    by_cases hc : inv < (di : ℤ)
    · rw [if_pos hc]
      rw [List.length_cons, Finset.sum_range_succ']
      have hne : eoq ≠ 0 := by omega
      simp only [List.getD_cons_succ, List.getD_cons_zero]
      rw [ih]
      simp [hne, add_comm]
    · rw [if_neg hc]
      rw [List.length_cons, Finset.sum_range_succ']
      simp only [List.getD_cons_succ, List.getD_cons_zero]
      rw [ih]
      simp

theorem foqAux_holding_cost (s h : ℚ) (eoq : ℕ) :
    ∀ (d : List ℕ) (inv : ℤ),
      (foqAux s h eoq d inv).2.1 =
        ∑ t in Finset.range d.length,
          ((inv : ℚ) + (sumTo (foqAux s h eoq d inv).2.2 (t + 1) : ℕ)
            - (sumTo d (t + 1) : ℕ)) * h := by
  intro d
  induction d with
  | nil => intro inv; simp [foqAux]
  | cons di rest ih =>
    intro inv
    rw [foqAux]
    by_cases hc : inv < (di : ℤ)
    · rw [if_pos hc]
      rw [List.length_cons, Finset.sum_range_succ']
      have hterm : ∀ t : ℕ,
          ((inv : ℚ) + (sumTo (eoq :: (foqAux s h eoq rest (inv + (eoq : ℤ) - di)).2.2)
              (t + 1 + 1) : ℕ) - (sumTo (di :: rest) (t + 1 + 1) : ℕ)) * h =
            (((inv + (eoq : ℤ) - di : ℤ) : ℚ) +
              (sumTo (foqAux s h eoq rest (inv + (eoq : ℤ) - di)).2.2 (t + 1) : ℕ)
              - (sumTo rest (t + 1) : ℕ)) * h := by
        intro t
        rw [sumTo_cons, sumTo_cons]
        push_cast
        ring
      simp only [hterm]
      rw [← ih]
      have hzero : ((inv : ℚ) +
          (sumTo (eoq :: (foqAux s h eoq rest (inv + (eoq : ℤ) - di)).2.2) (0 + 1) : ℕ)
          - (sumTo (di :: rest) (0 + 1) : ℕ)) * h =
            ((inv + (eoq : ℤ) - di : ℤ) : ℚ) * h := by
        rw [sumTo_cons, sumTo_cons, sumTo_zero, sumTo_zero]
        push_cast
        ring
      rw [hzero]
      ring
    · rw [if_neg hc]
      rw [List.length_cons, Finset.sum_range_succ']
      have hterm : ∀ t : ℕ,
          ((inv : ℚ) + (sumTo (0 :: (foqAux s h eoq rest (inv - di)).2.2)
              (t + 1 + 1) : ℕ) - (sumTo (di :: rest) (t + 1 + 1) : ℕ)) * h =
            (((inv - di : ℤ) : ℚ) +
              (sumTo (foqAux s h eoq rest (inv - di)).2.2 (t + 1) : ℕ)
              - (sumTo rest (t + 1) : ℕ)) * h := by
        intro t
        rw [sumTo_cons, sumTo_cons]
        push_cast
        ring
      simp only [hterm]
      rw [← ih]
      have hzero : ((inv : ℚ) +
          (sumTo (0 :: (foqAux s h eoq rest (inv - di)).2.2) (0 + 1) : ℕ)
          - (sumTo (di :: rest) (0 + 1) : ℕ)) * h =
            ((inv - di : ℤ) : ℚ) * h := by
        rw [sumTo_cons, sumTo_cons, sumTo_zero, sumTo_zero]
        push_cast
        ring
      rw [hzero]
      ring

theorem maxDemand_mem {d : List ℕ} {x : ℕ} (hx : x ∈ d) : x ≤ maxDemand d := by
  induction d with
  | nil => simp at hx
  | cons a t ih =>
    rcases List.mem_cons.mp hx with h1 | h2
    · rw [h1]; exact le_max_left _ _
    · exact le_trans (ih h2) (le_max_right _ _)

theorem defaultEOQ_ge (d : List ℕ) (s h : ℚ) : ∀ x ∈ d, x ≤ defaultEOQ d s h :=
  fun _ hx => le_trans (maxDemand_mem hx) (le_max_right _ _)

theorem defaultEOQ_pos (d : List ℕ) (s h : ℚ) (hd0 : 0 < d.getD 0 0) :
    0 < defaultEOQ d s h := by
  have h1 : d.getD 0 0 ≤ maxDemand d := maxDemand_ge d
  have h2 : maxDemand d ≤ defaultEOQ d s h := le_max_right _ _
  omega

/-! ### The DP value is a lower bound for the cost of any feasible plan -/

theorem sum_Ico_nested (f : ℕ → ℚ) :
    ∀ (j a : ℕ), a ≤ j →
      ∑ t in Finset.Ico a (j + 1), (∑ v in Finset.Ico (t + 1) (j + 1), f v) =
        ∑ v in Finset.Ico (a + 1) (j + 1), ((v - a : ℕ) : ℚ) * f v := by
  intro j
  induction j with
  | zero =>
    intro a ha
    have : a = 0 := by omega
    subst this
    simp
  | succ j ih =>
    intro a ha
    rcases Nat.lt_or_ge a (j + 1) with hlt | hge
    · have haj : a ≤ j := by omega
      rw [Finset.sum_Ico_succ_top (show a ≤ j + 1 by omega),
        Finset.sum_Ico_succ_top (show a + 1 ≤ j + 1 by omega)]
      have hempty : ∑ v in Finset.Ico (j + 1 + 1) (j + 1 + 1), f v = 0 := by simp
      have hinner : ∀ t ∈ Finset.Ico a (j + 1),
          ∑ v in Finset.Ico (t + 1) (j + 1 + 1), f v =
            (∑ v in Finset.Ico (t + 1) (j + 1), f v) + f (j + 1) := by
        intro t ht
        rcases Finset.mem_Ico.mp ht with ⟨_, ht2⟩
        exact Finset.sum_Ico_succ_top (by omega) f
      rw [Finset.sum_congr rfl hinner, Finset.sum_add_distrib, ih a haj, hempty, add_zero,
        Finset.sum_const, Nat.card_Ico, nsmul_eq_mul]
    · have : a = j + 1 := by omega
      subst this
      simp

theorem costC_closed_mul (d : List ℕ) (s h : ℚ) {i j : ℕ} (hij : i ≤ j) :
    costC d s h i j =
      s + h * ∑ v in Finset.Ico (i + 1) (j + 1), ((v - i : ℕ) : ℚ) * (d.getD v 0 : ℚ) := by
  rw [costC_closed d s h hij, Finset.mul_sum]
  congr 1
  refine Finset.sum_congr rfl ?_
  intro v _
  ring

theorem fval_le_planCost (d : List ℕ) (s h : ℚ) (hs : 0 ≤ s) (hh : 0 ≤ h)
    (p : List ℕ) (hp0 : p.getD 0 0 ≠ 0) :
    ∀ j, (∀ t, t ≤ j + 1 → sumTo d t ≤ sumTo p t) →
      fval d s h j ≤
        (∑ t in Finset.range (j + 1), (if p.getD t 0 ≠ 0 then s else 0)) +
          h * ∑ t in Finset.range (j + 1),
            ((sumTo p (t + 1) : ℕ) - ((sumTo d (t + 1) : ℕ) : ℚ)) := by
  intro j
  induction j using Nat.strong_induction_on with
  | _ j ih =>
    intro hfeas
    set i := Nat.findGreatest (fun t => p.getD t 0 ≠ 0) j with hi
    have hile : i ≤ j := by
      rw [hi]
      exact Nat.findGreatest_le j
    have hPi : p.getD i 0 ≠ 0 := by
      rw [hi]
      exact @Nat.findGreatest_spec 0 (fun t => p.getD t 0 ≠ 0) _ j (Nat.zero_le j) hp0
    have hgt : ∀ k, i < k → k ≤ j → p.getD k 0 = 0 := by
      intro k hk1 hk2
      rw [hi] at hk1
      exact not_not.mp (Nat.findGreatest_is_greatest hk1 hk2)
    -- the plan produces nothing after period i, so inventory from i onwards
    -- is at least the demand still to come up to period j
    have hplateau : ∀ t, i ≤ t → t ≤ j → sumTo p (t + 1) = sumTo p (i + 1) := by
      intro t ht1 ht2
      rw [sumTo_add_Ico p (show i + 1 ≤ t + 1 by omega)]
      have : ∑ k in Finset.Ico (i + 1) (t + 1), p.getD k 0 = 0 := by
        refine Finset.sum_eq_zero ?_
        intro k hk
        rcases Finset.mem_Ico.mp hk with ⟨hk1, hk2⟩
        exact hgt k (by omega) (by omega)
      rw [this, add_zero]
    have hIQ : ∀ t, i ≤ t → t ≤ j →
        ((∑ v in Finset.Ico (t + 1) (j + 1), (d.getD v 0 : ℚ))) ≤
          (sumTo p (t + 1) : ℕ) - ((sumTo d (t + 1) : ℕ) : ℚ) := by
      intro t ht1 ht2
      have h1 : sumTo p (t + 1) = sumTo p (j + 1) := by
        rw [hplateau t ht1 ht2, hplateau j hile (le_refl j)]
      have h2 : sumTo d (j + 1) ≤ sumTo p (j + 1) := hfeas (j + 1) (le_refl _)
      have h3 : sumTo d (j + 1) = sumTo d (t + 1) +
          ∑ v in Finset.Ico (t + 1) (j + 1), d.getD v 0 :=
        sumTo_add_Ico d (by omega)
      have h4 : (∑ v in Finset.Ico (t + 1) (j + 1), (d.getD v 0 : ℚ)) =
          ((∑ v in Finset.Ico (t + 1) (j + 1), d.getD v 0 : ℕ) : ℚ) := by
        push_cast
        rfl
      rw [h4]
      have : sumTo d (t + 1) + ∑ v in Finset.Ico (t + 1) (j + 1), d.getD v 0 ≤
          sumTo p (t + 1) := by omega
      have hcast : ((sumTo d (t + 1) + ∑ v in Finset.Ico (t + 1) (j + 1), d.getD v 0 : ℕ) : ℚ) ≤
          ((sumTo p (t + 1) : ℕ) : ℚ) := by exact_mod_cast this
      push_cast at hcast
      linarith
    -- the inventory-sum over periods i..j dominates the holding cost of the
    -- single interval [i, j]
    have hIcoIQ :
        ∑ v in Finset.Ico (i + 1) (j + 1), ((v - i : ℕ) : ℚ) * (d.getD v 0 : ℚ) ≤
          ∑ t in Finset.Ico i (j + 1),
            ((sumTo p (t + 1) : ℕ) - ((sumTo d (t + 1) : ℕ) : ℚ)) := by
      rw [← sum_Ico_nested (fun v => (d.getD v 0 : ℚ)) j i hile]
      refine Finset.sum_le_sum ?_
      intro t ht
      rcases Finset.mem_Ico.mp ht with ⟨ht1, ht2⟩
      exact hIQ t ht1 (by omega)
    have hsplit_range : ∀ (f : ℕ → ℚ), ∑ t in Finset.range (j + 1), f t =
        (∑ t in Finset.range i, f t) + ∑ t in Finset.Ico i (j + 1), f t := by
      intro f
      rw [Finset.range_eq_Ico]
      exact (Finset.sum_Ico_consecutive _ (Nat.zero_le i) (by omega)).symm
    have hIQ_nonneg : ∀ t, t ≤ j →
        (0 : ℚ) ≤ (sumTo p (t + 1) : ℕ) - ((sumTo d (t + 1) : ℕ) : ℚ) := by
      intro t ht
      have := hfeas (t + 1) (by omega)
      have hcast : ((sumTo d (t + 1) : ℕ) : ℚ) ≤ ((sumTo p (t + 1) : ℕ) : ℚ) := by
        exact_mod_cast this
      linarith
    cases hicase : i with
    | zero =>
      -- single production at period 0 covering everything up to j
      have hcand : fval d s h j ≤ costC d s h 0 j := by
        have := fval_le_candidate d s h (Nat.zero_le j)
        simpa [candidate] using this
      rw [costC_closed_mul d s h (Nat.zero_le j)] at hcand
      have hsetup : s ≤ ∑ t in Finset.range (j + 1), (if p.getD t 0 ≠ 0 then s else 0) := by
        have hmem : 0 ∈ Finset.range (j + 1) := Finset.mem_range.mpr (by omega)
        rw [Finset.sum_eq_sum_diff_singleton_add hmem]
        have hW : (if p.getD 0 0 ≠ 0 then s else 0) = s := if_pos hp0
        rw [hW]
        have : (0 : ℚ) ≤ ∑ t in Finset.range (j + 1) \ {0},
            (if p.getD t 0 ≠ 0 then s else 0) := by
          refine Finset.sum_nonneg ?_
          intro t _
          split
          · exact hs
          · exact le_refl 0
        linarith
      have hhold : h * ∑ v in Finset.Ico (0 + 1) (j + 1), ((v - 0 : ℕ) : ℚ) * (d.getD v 0 : ℚ) ≤
          h * ∑ t in Finset.range (j + 1),
            ((sumTo p (t + 1) : ℕ) - ((sumTo d (t + 1) : ℕ) : ℚ)) := by
        refine mul_le_mul_of_nonneg_left ?_ hh
        have h0 : ∑ t in Finset.range (j + 1),
            ((sumTo p (t + 1) : ℕ) - ((sumTo d (t + 1) : ℕ) : ℚ)) =
              ∑ t in Finset.Ico 0 (j + 1),
                ((sumTo p (t + 1) : ℕ) - ((sumTo d (t + 1) : ℕ) : ℚ)) := by
          rw [Finset.range_eq_Ico]
        rw [h0]
        have := hIcoIQ
        rw [hicase] at this
        exact this
      linarith
    | succ q =>
      -- production periods before i, then a final production at i covering i..j
      have hq : q + 1 ≤ j := by omega
      have hfeas' : ∀ t, t ≤ q + 1 → sumTo d t ≤ sumTo p t := by
        intro t ht
        exact hfeas t (by omega)
      have hrec := ih q (by omega) hfeas'
      have hcand : fval d s h j ≤ fval d s h q + costC d s h (q + 1) j := by
        have h1 := fval_le_candidate d s h hq
        have h2 : candidate d s h j (q + 1) = fval d s h q + costC d s h (q + 1) j := by
          simp [candidate]
        rw [h2] at h1
        exact h1
      rw [costC_closed_mul d s h hq] at hcand
      -- setup-cost side: the period-i setup is counted once, nothing after i
      have hsetup : (∑ t in Finset.range (q + 1), (if p.getD t 0 ≠ 0 then s else 0)) + s ≤
          ∑ t in Finset.range (j + 1), (if p.getD t 0 ≠ 0 then s else 0) := by
        rw [hsplit_range]
        have hmem : i ∈ Finset.Ico i (j + 1) := Finset.mem_Ico.mpr ⟨le_refl i, by omega⟩
        have h1 : ∑ t in Finset.Ico i (j + 1), (if p.getD t 0 ≠ 0 then s else 0) =
            (∑ t in Finset.Ico i (j + 1) \ {i}, (if p.getD t 0 ≠ 0 then s else 0)) +
              (if p.getD i 0 ≠ 0 then s else 0) :=
          Finset.sum_eq_sum_diff_singleton_add hmem _
        have h2 : (if p.getD i 0 ≠ 0 then s else 0) = s := if_pos hPi
        have h3 : (0 : ℚ) ≤ ∑ t in Finset.Ico i (j + 1) \ {i},
            (if p.getD t 0 ≠ 0 then s else 0) := by
          refine Finset.sum_nonneg ?_
          intro t _
          split
          · exact hs
          · exact le_refl 0
        rw [hicase]
        rw [hicase] at h1 h2 h3
        linarith
      -- holding-cost side
      have hhold : h * ∑ t in Finset.range (q + 1),
            ((sumTo p (t + 1) : ℕ) - ((sumTo d (t + 1) : ℕ) : ℚ)) +
          h * ∑ v in Finset.Ico (q + 1 + 1) (j + 1),
            ((v - (q + 1) : ℕ) : ℚ) * (d.getD v 0 : ℚ) ≤
          h * ∑ t in Finset.range (j + 1),
            ((sumTo p (t + 1) : ℕ) - ((sumTo d (t + 1) : ℕ) : ℚ)) := by
        rw [hsplit_range (fun t => ((sumTo p (t + 1) : ℕ) - ((sumTo d (t + 1) : ℕ) : ℚ)))]
        have h1 : ∑ v in Finset.Ico (q + 1 + 1) (j + 1),
            ((v - (q + 1) : ℕ) : ℚ) * (d.getD v 0 : ℚ) ≤
              ∑ t in Finset.Ico (q + 1) (j + 1),
                ((sumTo p (t + 1) : ℕ) - ((sumTo d (t + 1) : ℕ) : ℚ)) := by
          have := hIcoIQ
          rw [hicase] at this
          exact this
        rw [hicase, mul_add]
        have h3 := mul_le_mul_of_nonneg_left h1 hh
        linarith
      have hstep : fval d s h j ≤
          ((∑ t in Finset.range (q + 1), (if p.getD t 0 ≠ 0 then s else 0)) + s) +
            (h * ∑ t in Finset.range (q + 1),
                ((sumTo p (t + 1) : ℕ) - ((sumTo d (t + 1) : ℕ) : ℚ)) +
              h * ∑ v in Finset.Ico (q + 1 + 1) (j + 1),
                ((v - (q + 1) : ℕ) : ℚ) * (d.getD v 0 : ℚ)) := by
        linarith
      exact le_trans hstep (add_le_add hsetup hhold)

/-! ### Equations for the public entry points, and cost comparisons -/

theorem length_pos_of_ne_nil {d : List ℕ} (hd : d ≠ []) : 1 ≤ d.length := by
  cases d with
  | nil => exact absurd rfl hd
  | cons a t => simp

theorem wagner_whitin_eq (d : List ℕ) (s h : ℚ) (hd : d ≠ []) :
    wagner_whitin d s h =
      some (fval d s h (d.length - 1), wwPlanList d s h) := by
  have hn : d.length ≠ 0 := by
    have := length_pos_of_ne_nil hd
    omega
  rw [wagner_whitin, if_neg hn]

theorem fixed_order_quantity_default_eq (d : List ℕ) (s h : ℚ) (hd : d ≠ [])
    (hs : 0 < s) (hh : 0 < h) :
    fixed_order_quantity d s h none =
      some ((foqAux s h (defaultEOQ d s h) d 0).1 + (foqAux s h (defaultEOQ d s h) d 0).2.1,
        (foqAux s h (defaultEOQ d s h) d 0).2.2) := by
  have hn : d.length ≠ 0 := by
    have := length_pos_of_ne_nil hd
    omega
  have harg : ¬ (2 * ((d.sum : ℚ) / (d.length : ℚ)) * s / h < 0) := by
    refine not_lt.mpr ?_
    have h1 : (0 : ℚ) ≤ (d.sum : ℚ) / (d.length : ℚ) := by positivity
    positivity
  simp only [fixed_order_quantity]
  rw [if_neg]
  push_neg
  exact ⟨hn, ne_of_gt hh, not_lt.mp harg⟩

theorem lot_for_lot_cost_eq (d : List ℕ) (s h : ℚ) :
    (lot_for_lot d s h).1 =
      ∑ t in Finset.range d.length, (if d.getD t 0 ≠ 0 then s else 0) :=
  lflAux_cost s d

theorem fval_le_lflCost (d : List ℕ) (s h h2 : ℚ) (hs : 0 ≤ s) (hh : 0 ≤ h)
    (hd : d ≠ []) (hd0 : d.getD 0 0 ≠ 0) :
    fval d s h (d.length - 1) ≤ (lot_for_lot d s h2).1 := by
  have hn := length_pos_of_ne_nil hd
  have hmain := fval_le_planCost d s h hs hh d hd0 (d.length - 1)
    (fun t _ => le_refl _)
  have hzero : ∑ t in Finset.range (d.length - 1 + 1),
      ((sumTo d (t + 1) : ℕ) - ((sumTo d (t + 1) : ℕ) : ℚ)) = 0 := by
    refine Finset.sum_eq_zero ?_
    intro t _
    exact sub_self _
  rw [hzero, mul_zero, add_zero] at hmain
  rw [lot_for_lot, lflAux_cost]
  have hlen : d.length - 1 + 1 = d.length := by omega
  rw [hlen] at hmain
  exact hmain

theorem fval_le_foqCost (d : List ℕ) (s h : ℚ) (eoq : ℕ) (hs : 0 ≤ s) (hh : 0 ≤ h)
    (hd : d ≠ []) (hd0 : d.getD 0 0 ≠ 0) (hpos : 0 < eoq) (hge : ∀ x ∈ d, x ≤ eoq) :
    fval d s h (d.length - 1) ≤
      (foqAux s h eoq d 0).1 + (foqAux s h eoq d 0).2.1 := by
  have hn := length_pos_of_ne_nil hd
  have hp0 : (foqAux s h eoq d 0).2.2.getD 0 0 ≠ 0 := by
    cases d with
    | nil => exact absurd rfl hd
    | cons d0 rest =>
      have hd0' : d0 ≠ 0 := by simpa using hd0
      have hc : (0 : ℤ) < (d0 : ℤ) := by
        exact_mod_cast Nat.pos_of_ne_zero hd0'
      rw [foqAux, if_pos hc]
      simpa using Nat.pos_iff_ne_zero.mp hpos
  have hfeas : ∀ t, t ≤ (d.length - 1) + 1 →
      sumTo d t ≤ sumTo (foqAux s h eoq d 0).2.2 t := by
    intro t ht
    have := foqAux_feasible s h eoq d 0 hge (le_refl 0) t (by omega)
    rw [zero_add] at this
    exact_mod_cast this
  have hmain := fval_le_planCost d s h hs hh (foqAux s h eoq d 0).2.2 hp0
    (d.length - 1) hfeas
  have hlen : d.length - 1 + 1 = d.length := by omega
  rw [hlen] at hmain
  rw [foqAux_setup_cost s h eoq hpos d 0, foqAux_holding_cost s h eoq d 0]
  have hbridge : ∑ t in Finset.range d.length,
      (((0 : ℤ) : ℚ) + (sumTo (foqAux s h eoq d 0).2.2 (t + 1) : ℕ)
        - (sumTo d (t + 1) : ℕ)) * h =
      h * ∑ t in Finset.range d.length,
        ((sumTo (foqAux s h eoq d 0).2.2 (t + 1) : ℕ) - ((sumTo d (t + 1) : ℕ) : ℚ)) := by
    rw [Finset.mul_sum]
    refine Finset.sum_congr rfl ?_
    intro t _
    push_cast
    ring
  rw [hbridge]
  exact hmain

/-! ### Claims -/

/-- Claim C4 (confirmed): for every demand sequence with `n` periods and all
`0 ≤ i ≤ j < n`, the cost-matrix entry built by `wagner_whitin` equals
`setup_cost` when `i = j`, and equals `setup_cost` plus the sum over `k` from
`i+1` to `j` of `demand[k] * (k - i) * holding_cost` when `i < j`. -/
theorem claim_C4 (d : List ℕ) (s h : ℚ) (i j : ℕ) (hij : i ≤ j) (hjn : j < d.length) :
    (i = j → costC d s h i j = s) ∧
    (i < j → costC d s h i j =
      s + ∑ k in Finset.Icc (i + 1) j, (d.getD k 0 : ℚ) * ((k - i : ℕ) : ℚ) * h) := by
  constructor
  · intro hieq
    subst hieq
    exact costC_self d s h i
  · intro _
    rw [costC_closed d s h hij, ← Nat.Ico_succ_right]

theorem claim_C4_witness :
    (1 : ℕ) ≤ 3 ∧ 3 < ([10, 20, 30, 40] : List ℕ).length ∧
    ((1 = 3 → costC [10, 20, 30, 40] 50 1 1 3 = 50) ∧
      (1 < 3 → costC [10, 20, 30, 40] 50 1 1 3 =
        50 + ∑ k in Finset.Icc 2 3,
          (([10, 20, 30, 40] : List ℕ).getD k 0 : ℚ) * ((k - 1 : ℕ) : ℚ) * 1)) :=
  ⟨by decide, by decide, claim_C4 [10, 20, 30, 40] 50 1 1 3 (by decide) (by decide)⟩

/-- Claim C5 (confirmed): in the forward DP of `wagner_whitin`, the recorded
`last_production[j]` is a start period `≤ j` whose candidate value
`f[i-1] + cost[i][j]` is minimal over `i = 0..j`, and on ties it is the
smallest such `i` (the scan is in increasing `i` with strict `<`
replacement). -/
theorem claim_C5 (d : List ℕ) (s h : ℚ) (j : ℕ) (hj : j < d.length) :
    lastVal d s h j ≤ j ∧
    fval d s h j = candidate d s h j (lastVal d s h j) ∧
    (∀ i, i ≤ j → candidate d s h j (lastVal d s h j) ≤ candidate d s h j i) ∧
    (∀ i, i ≤ j → candidate d s h j i = candidate d s h j (lastVal d s h j) →
      lastVal d s h j ≤ i) := by
  refine ⟨lastVal_le d s h j, fval_eq_candidate_last d s h j, ?_, ?_⟩
  · intro i hi
    rw [← fval_eq_candidate_last d s h j]
    exact fval_le_candidate d s h hi
  · intro i hi heq
    by_contra hlt
    push_neg at hlt
    have h1 := fval_lt_candidate_of_lt_last d s h hlt
    rw [heq, ← fval_eq_candidate_last d s h j] at h1
    exact lt_irrefl _ h1

theorem claim_C5_witness :
    3 < ([10, 20, 30, 40] : List ℕ).length ∧
    (lastVal [10, 20, 30, 40] 50 1 3 ≤ 3 ∧
      fval [10, 20, 30, 40] 50 1 3 =
        candidate [10, 20, 30, 40] 50 1 3 (lastVal [10, 20, 30, 40] 50 1 3) ∧
      (∀ i, i ≤ 3 → candidate [10, 20, 30, 40] 50 1 3 (lastVal [10, 20, 30, 40] 50 1 3) ≤
        candidate [10, 20, 30, 40] 50 1 3 i) ∧
      (∀ i, i ≤ 3 → candidate [10, 20, 30, 40] 50 1 3 i =
        candidate [10, 20, 30, 40] 50 1 3 (lastVal [10, 20, 30, 40] 50 1 3) →
        lastVal [10, 20, 30, 40] 50 1 3 ≤ i)) :=
  ⟨by decide, claim_C5 [10, 20, 30, 40] 50 1 3 (by decide)⟩

/-- Claim C7, counterexample: the claim says every policy fails on an empty
demand sequence with no silent zero-cost result, but `lot_for_lot` on an
empty demand list silently returns total cost `0` with an empty plan. -/
theorem claim_C7_cex : lot_for_lot [] 50 1 = ((0 : ℚ), ([] : List ℕ)) := rfl

/-- Claim C7 (corrected): on an empty demand sequence `wagner_whitin` fails
(index error on the empty `f` array) and `fixed_order_quantity` with no
explicit quantity fails (division by zero); but `lot_for_lot` does not fail —
it silently returns cost `0` with an empty plan — and neither does
`fixed_order_quantity` when an explicit quantity is supplied. -/
theorem claim_C7 (s h : ℚ) (q : ℕ) :
    wagner_whitin [] s h = none ∧
    fixed_order_quantity [] s h none = none ∧
    lot_for_lot [] s h = (0, []) ∧
    fixed_order_quantity [] s h (some q) = some (0, []) := by
  refine ⟨rfl, ?_, rfl, ?_⟩
  · simp [fixed_order_quantity]
  · norm_num [fixed_order_quantity, foqAux]

/-- Claim C8 (confirmed): `fixed_order_quantity` with `holding_cost = 0` and
no explicit quantity fails with a division error (modelled as `none`), while
with an explicit quantity it returns a result (the divisor is only used to
compute the default order quantity). -/
theorem claim_C8 (d : List ℕ) (s : ℚ) (q : ℕ) :
    fixed_order_quantity d s 0 none = none ∧
    (fixed_order_quantity d s 0 (some q)).isSome = true := by
  constructor
  · simp [fixed_order_quantity]
  · rfl

/-- Claim C9 (confirmed): on the instance demand `[10, 20, 30, 40]`,
`setup_cost = 50`, `holding_cost = 1`, `wagner_whitin` returns total cost
`160`, strictly below the lot-for-lot cost `200 = 4 × 50`. -/
theorem claim_C9 :
    wagner_whitin [10, 20, 30, 40] 50 1 = some (160, [30, 0, 70, 0]) ∧
    (lot_for_lot [10, 20, 30, 40] 50 1).1 = 200 ∧
    (160 : ℚ) < 200 := by
  refine ⟨?_, ?_, by norm_num⟩
  · norm_num [wagner_whitin, wwPlanList, fval, lastVal, wwFs, dpScan, gOf, costC,
      costAux, backAux, sliceSum, sumTo]
    decide
  · norm_num [lot_for_lot, lflAux]

/-- Claim C10 (confirmed): `lot_for_lot` ignores its `holding_cost` argument
entirely — for any two holding costs the returned `(cost, plan)` pairs are
identical. -/
theorem claim_C10 (d : List ℕ) (s h1 h2 : ℚ) :
    lot_for_lot d s h1 = lot_for_lot d s h2 := rfl

/-- Claim C1 (confirmed): for every nonempty demand sequence (entries are
naturals, hence non-negative), `setup_cost > 0` and `holding_cost ≥ 0`, the
cost returned by `wagner_whitin` equals the minimum, over all partitions of
periods `0..n-1` into contiguous coverage intervals, of the sum of the
interval costs `C[i][j]`: it is the cost of some partition, and is `≤` the
cost of every partition. -/
theorem claim_C1 (d : List ℕ) (s h : ℚ) (hd : d ≠ []) (hs : 0 < s) (hh : 0 ≤ h) :
    ∀ c p, wagner_whitin d s h = some (c, p) →
      PartCost d s h (d.length - 1) c ∧
      (∀ c2, PartCost d s h (d.length - 1) c2 → c ≤ c2) := by
  intro c p hcp
  rw [wagner_whitin_eq d s h hd] at hcp
  simp only [Option.some.injEq, Prod.mk.injEq] at hcp
  obtain ⟨hc, _⟩ := hcp
  subst hc
  exact ⟨partCost_fval d s h _, fun c2 h2 => fval_le_partCost d s h h2⟩

theorem claim_C1_witness :
    ([10, 20, 30, 40] : List ℕ) ≠ [] ∧ (0 : ℚ) < 50 ∧ (0 : ℚ) ≤ 1 ∧
    (PartCost [10, 20, 30, 40] 50 1 3 160 ∧
      (∀ c2, PartCost [10, 20, 30, 40] 50 1 3 c2 → (160 : ℚ) ≤ c2)) :=
  ⟨by decide, by norm_num, by norm_num,
    claim_C1 [10, 20, 30, 40] 50 1 (by decide) (by norm_num) (by norm_num)
      160 [30, 0, 70, 0]
      (by
        norm_num [wagner_whitin, wwPlanList, fval, lastVal, wwFs, dpScan, gOf, costC,
          costAux, backAux, sliceSum, sumTo]
        decide)⟩

/-- Claim C2, counterexample: conservation fails for `fixed_order_quantity`.
On demand `[10, 10]` with `setup_cost = 50`, `holding_cost = 1`, the default
order quantity is `31` and the returned plan `[31, 0]` produces `31 ≠ 20`
units, exceeding total demand. -/
theorem claim_C2_cex :
    fixed_order_quantity [10, 10] 50 1 none = some (82, [31, 0]) ∧
    ([31, 0] : List ℕ).sum ≠ ([10, 10] : List ℕ).sum := by
  constructor
  · norm_num [fixed_order_quantity, defaultEOQ, maxDemand, foqAux,
      show Int.toNat 1000 = 1000 from rfl]
  · decide

/-- Claim C2 (corrected): for valid inputs, `wagner_whitin` and
`lot_for_lot` return plans whose total production equals total demand, while
`fixed_order_quantity` only guarantees total production `≥` total demand
(it produces in multiples of the fixed quantity and can leave surplus
inventory, so equality can fail). -/
theorem claim_C2 (d : List ℕ) (s h : ℚ) (hd : d ≠ []) (hs : 0 < s) (hh : 0 < h) :
    (∀ c p, wagner_whitin d s h = some (c, p) → p.sum = d.sum) ∧
    (lot_for_lot d s h).2.sum = d.sum ∧
    (∀ c p, fixed_order_quantity d s h none = some (c, p) → d.sum ≤ p.sum) := by
  refine ⟨?_, ?_, ?_⟩
  · intro c p hcp
    rw [wagner_whitin_eq d s h hd] at hcp
    simp only [Option.some.injEq, Prod.mk.injEq] at hcp
    obtain ⟨_, hp⟩ := hcp
    subst hp
    obtain ⟨hl, hsum, _⟩ := wwPlanList_spec d s h hd
    rw [sum_eq_sumTo, sum_eq_sumTo, hl, hsum]
  · show (lflAux s d).2.sum = d.sum
    rw [lflAux_plan]
  · intro c p hcp
    rw [fixed_order_quantity_default_eq d s h hd hs hh] at hcp
    simp only [Option.some.injEq, Prod.mk.injEq] at hcp
    obtain ⟨_, hp⟩ := hcp
    subst hp
    have hlenp := foqAux_len s h (defaultEOQ d s h) d 0
    have hfeas := foqAux_feasible s h (defaultEOQ d s h) d 0
      (defaultEOQ_ge d s h) (le_refl 0) d.length (le_refl _)
    rw [zero_add] at hfeas
    rw [sum_eq_sumTo, sum_eq_sumTo, hlenp]
    exact_mod_cast hfeas

theorem claim_C2_witness :
    ([10, 20, 30, 40] : List ℕ) ≠ [] ∧ (0 : ℚ) < 50 ∧ (0 : ℚ) < 1 ∧
    ((∀ c p, wagner_whitin [10, 20, 30, 40] 50 1 = some (c, p) →
        p.sum = ([10, 20, 30, 40] : List ℕ).sum) ∧
      (lot_for_lot [10, 20, 30, 40] 50 1).2.sum = ([10, 20, 30, 40] : List ℕ).sum ∧
      (∀ c p, fixed_order_quantity [10, 20, 30, 40] 50 1 none = some (c, p) →
        ([10, 20, 30, 40] : List ℕ).sum ≤ p.sum)) :=
  ⟨by decide, by norm_num, by norm_num,
    claim_C2 [10, 20, 30, 40] 50 1 (by decide) (by norm_num) (by norm_num)⟩

/-- Claim C3, counterexample: with a zero first-period demand the claimed
optimality fails.  On demand `[0, 5]`, `setup_cost = 50`, `holding_cost = 10`
(a valid input for the claim), `wagner_whitin` returns cost `100` while both
`lot_for_lot` and `fixed_order_quantity` cost `50`, so neither
`cost(WW) ≤ cost(LFL)` nor `cost(WW) ≤ cost(FOQ)` holds. -/
theorem claim_C3_cex :
    wagner_whitin [0, 5] 50 10 = some (100, [5, 0]) ∧
    lot_for_lot [0, 5] 50 10 = (50, [0, 5]) ∧
    fixed_order_quantity [0, 5] 50 10 none = some (50, [0, 5]) ∧
    ¬ ((100 : ℚ) ≤ 50) := by
  refine ⟨?_, ?_, ?_, by norm_num⟩
  · norm_num [wagner_whitin, wwPlanList, fval, lastVal, wwFs, dpScan, gOf, costC,
      costAux, backAux, sliceSum, sumTo]
    decide
  · norm_num [lot_for_lot, lflAux]
  · norm_num [fixed_order_quantity, defaultEOQ, maxDemand, foqAux,
      show Int.toNat 25 = 25 from rfl]

/-- Claim C3 (corrected): the optimality comparison holds once the first
period has positive demand (`demand[0] > 0`): for every such valid input,
`cost(wagner_whitin) ≤ cost(lot_for_lot)` and
`cost(wagner_whitin) ≤ cost(fixed_order_quantity)` with the default computed
quantity.  (With `demand[0] = 0` the coded DP still pays a setup covering
period 0 and can exceed both heuristics, see the counterexample.) -/
theorem claim_C3 (d : List ℕ) (s h : ℚ) (hd : d ≠ []) (hs : 0 < s) (hh : 0 < h)
    (hd0 : 0 < d.getD 0 0) :
    ∀ c p c2 p2, wagner_whitin d s h = some (c, p) →
      fixed_order_quantity d s h none = some (c2, p2) →
      c ≤ (lot_for_lot d s h).1 ∧ c ≤ c2 := by
  intro c p c2 p2 hww hfoq
  rw [wagner_whitin_eq d s h hd] at hww
  simp only [Option.some.injEq, Prod.mk.injEq] at hww
  obtain ⟨hc, _⟩ := hww
  subst hc
  rw [fixed_order_quantity_default_eq d s h hd hs hh] at hfoq
  simp only [Option.some.injEq, Prod.mk.injEq] at hfoq
  obtain ⟨hc2, _⟩ := hfoq
  subst hc2
  have hd0' : d.getD 0 0 ≠ 0 := Nat.pos_iff_ne_zero.mp hd0
  constructor
  · exact fval_le_lflCost d s h h (le_of_lt hs) (le_of_lt hh) hd hd0'
  · exact fval_le_foqCost d s h (defaultEOQ d s h) (le_of_lt hs) (le_of_lt hh)
      hd hd0' (defaultEOQ_pos d s h hd0) (defaultEOQ_ge d s h)

theorem claim_C3_witness :
    ([10, 20, 30, 40] : List ℕ) ≠ [] ∧ (0 : ℚ) < 50 ∧ (0 : ℚ) < 1 ∧
    0 < ([10, 20, 30, 40] : List ℕ).getD 0 0 ∧
    ((160 : ℚ) ≤ (lot_for_lot [10, 20, 30, 40] 50 1).1 ∧ (160 : ℚ) ≤ 200) :=
  ⟨by decide, by norm_num, by norm_num, by decide,
    claim_C3 [10, 20, 30, 40] 50 1 (by decide) (by norm_num) (by norm_num) (by decide)
      160 [30, 0, 70, 0] 200 [50, 0, 50, 0]
      (by
        norm_num [wagner_whitin, wwPlanList, fval, lastVal, wwFs, dpScan, gOf, costC,
          costAux, backAux, sliceSum, sumTo]
        decide)
      (by
        norm_num [fixed_order_quantity, defaultEOQ, maxDemand, foqAux,
          show Int.toNat 2500 = 2500 from rfl])⟩

/-- Claim C6 (confirmed): for every valid input, the plans returned by
`wagner_whitin`, `lot_for_lot` and `fixed_order_quantity` (with the default
computed quantity) satisfy the no-backorder property: for every prefix
length `k`, cumulative production is at least cumulative demand. -/
theorem claim_C6 (d : List ℕ) (s h : ℚ) (hd : d ≠ []) (hs : 0 < s) (hh : 0 < h) :
    (∀ c p, wagner_whitin d s h = some (c, p) →
      ∀ k, k ≤ d.length → sumTo d k ≤ sumTo p k) ∧
    (∀ k, k ≤ d.length → sumTo d k ≤ sumTo (lot_for_lot d s h).2 k) ∧
    (∀ c p, fixed_order_quantity d s h none = some (c, p) →
      ∀ k, k ≤ d.length → sumTo d k ≤ sumTo p k) := by
  refine ⟨?_, ?_, ?_⟩
  · intro c p hcp k hk
    rw [wagner_whitin_eq d s h hd] at hcp
    simp only [Option.some.injEq, Prod.mk.injEq] at hcp
    obtain ⟨_, hp⟩ := hcp
    subst hp
    obtain ⟨_, _, hfeas⟩ := wwPlanList_spec d s h hd
    exact hfeas k hk
  · intro k _
    have : (lot_for_lot d s h).2 = d := lflAux_plan s d
    rw [this]
  · intro c p hcp k hk
    rw [fixed_order_quantity_default_eq d s h hd hs hh] at hcp
    simp only [Option.some.injEq, Prod.mk.injEq] at hcp
    obtain ⟨_, hp⟩ := hcp
    subst hp
    have hfeas := foqAux_feasible s h (defaultEOQ d s h) d 0
      (defaultEOQ_ge d s h) (le_refl 0) k hk
    rw [zero_add] at hfeas
    exact_mod_cast hfeas

theorem claim_C6_witness :
    ([10, 20, 30, 40] : List ℕ) ≠ [] ∧ (0 : ℚ) < 50 ∧ (0 : ℚ) < 1 ∧
    ((∀ c p, wagner_whitin [10, 20, 30, 40] 50 1 = some (c, p) →
        ∀ k, k ≤ ([10, 20, 30, 40] : List ℕ).length →
          sumTo [10, 20, 30, 40] k ≤ sumTo p k) ∧
      (∀ k, k ≤ ([10, 20, 30, 40] : List ℕ).length →
        sumTo [10, 20, 30, 40] k ≤ sumTo (lot_for_lot [10, 20, 30, 40] 50 1).2 k) ∧
      (∀ c p, fixed_order_quantity [10, 20, 30, 40] 50 1 none = some (c, p) →
        ∀ k, k ≤ ([10, 20, 30, 40] : List ℕ).length →
          sumTo [10, 20, 30, 40] k ≤ sumTo p k)) :=
  ⟨by decide, by norm_num, by norm_num,
    claim_C6 [10, 20, 30, 40] 50 1 (by decide) (by norm_num) (by norm_num)⟩

end ProductionPlanning
